/-
Verification of the vitess collation subsystem specification.

The runtime collation engine (`WeightString` / `Compare`) is not part of the
source tree given under scrutiny; only its offline data generator
(`go/mysql/collations/tools/makemysqldata/makemysqldata.go`), the golden-corpus
test harness and build metadata are.  The engine is therefore modelled from the
specification text (each such definition says so in its doc comment), while the
generator functions (`diffMaps`, `writeUcaLegacy`, `writeUca900`, the
classification switch of `main`) are translated directly from the Go source.

Inputs to the weight engine are modelled as lists of Unicode codepoints
(natural numbers): the spec states the weight engine is charset-agnostic once
codepoints are produced.  Weights are 16-bit values modelled as `Nat`, emitted
big-endian as two bytes.
-/
import Mathlib

namespace Vitess

/-- A contraction rule: an ordered codepoint path mapped to a combined weight
vector, with a contextual flag (mirrors `uca.Contraction` as emitted by the
generator: fields `Path`, `Weights`, `Contextual`). -/
structure Contraction where
  path : List Nat
  weights : List Nat
  contextual : Bool
deriving DecidableEq, Repr

/-- A reorder range `(fromMin, fromMax, toMin, toMax)` remapping a
primary-weight subrange (mirrors `uca.Reorder` as emitted by the generator). -/
structure Reorder where
  fromMin : Nat
  fromMax : Nat
  toMin : Nat
  toMax : Nat
deriving DecidableEq, Repr

/-- Modelled from the spec: a collation as used by the weight engine (the
engine itself is not under the sources given): number of comparison levels
(1–4), codepoint→weight-vector table, per-collation tailoring patches,
contraction rules, reorder ranges, and the PAD SPACE flag. Tables are
association lists keyed by codepoint. -/
structure Collation where
  levels : Nat
  table : List (Nat × List Nat)
  patches : List (Nat × List Nat)
  contractions : List Contraction
  reorder : List Reorder
  padSpace : Bool
deriving Repr

/-- Modelled from the spec: the implicit-weight formula for codepoints with no
explicit table entry, consistent with the UCA default (primary derived from the
codepoint value, so unassigned codepoints sort deterministically). -/
def implicitWeight (cp : Nat) : List Nat :=
  [0xFB40 + cp / 0x8000, 0x8000 + cp % 0x8000, 0x20, 0x2]

/-- Modelled from the spec (§4.2): weight lookup consults the patch set first;
on miss, falls back to the shared table; on miss there, computes the implicit
weight. -/
def lookupWeight (c : Collation) (cp : Nat) : List Nat :=
  match List.lookup cp c.patches with
  | some w => w
  | none =>
    match List.lookup cp c.table with
    | some w => w
    | none => implicitWeight cp

/-- Modelled from the spec (§4.4): remap a primary weight if it falls inside a
configured reorder range; the first matching range applies. -/
def reorderPrimary (rs : List Reorder) (p : Nat) : Nat :=
  match rs.find? (fun r => r.fromMin ≤ p && p ≤ r.fromMax) with
  | some r => r.toMin + (p - r.fromMin)
  | none => p

/-- Modelled from the spec: reorder applies only to the primary (first) level
of a resolved weight vector. -/
def applyReorder (rs : List Reorder) : List Nat → List Nat
  | [] => []
  | p :: rest => reorderPrimary rs p :: rest

/-- Whether a (non-contextual) contraction fires at the current scan position:
its path is a nonempty prefix of the remaining codepoints. Contextual rules
need lookahead context and are handled outside the plain matcher. -/
def matchesAt (input : List Nat) (ctr : Contraction) : Bool :=
  !ctr.contextual && !ctr.path.isEmpty && ctr.path.isPrefixOf input

/-- Modelled from the spec (§4.3): among the registered contractions whose path
starts at the current position, pick the one with the longest path (a strictly
longer candidate always replaces the current best). -/
def bestMatch (input : List Nat) : List Contraction → Option Contraction
  | [] => none
  | ctr :: rest =>
    let best := bestMatch input rest
    if matchesAt input ctr then
      match best with
      | none => some ctr
      | some b => if b.path.length < ctr.path.length then some ctr else some b
    else best

theorem bestMatch_matches {input : List Nat} {ctrs : List Contraction}
    {b : Contraction} (h : bestMatch input ctrs = some b) :
    matchesAt input b = true := by
  induction ctrs with
  | nil => simp [bestMatch] at h
  | cons c cs ih =>
    simp only [bestMatch] at h
    by_cases hm : matchesAt input c
    · simp only [hm, if_true] at h
      cases hb : bestMatch input cs with
      | none => rw [hb] at h; cases h; exact hm
      | some b0 =>
        rw [hb] at h
        by_cases hl : b0.path.length < c.path.length
        · simp [hl] at h; cases h; exact hm
        · simp [hl] at h; cases h; exact ih hb
    · simp only [hm] at h
      simp at h
      exact ih h

theorem matchesAt_path_pos {input : List Nat} {ctr : Contraction}
    (h : matchesAt input ctr = true) :
    0 < ctr.path.length ∧ ctr.path.length ≤ input.length := by
  unfold matchesAt at h
  simp only [Bool.and_eq_true, Bool.not_eq_true'] at h
  obtain ⟨⟨-, hne⟩, hpre⟩ := h
  constructor
  · cases hp : ctr.path with
    | nil => rw [hp] at hne; simp at hne
    | cons a l => simp [hp]
  · exact (List.isPrefixOf_iff_prefix.mp hpre).length_le

/-- Modelled from the spec (§4.5): walk the codepoints left to right; at each
position attempt the longest contraction match, else resolve a
single-codepoint weight vector via patch+table+implicit fallback; apply
reorder to the primary component of the resolved vector. Produces the
per-position weight vectors in order. -/
def scanWeights (c : Collation) : List Nat → List (List Nat)
  | [] => []
  | cp :: rest =>
    match h : bestMatch (cp :: rest) c.contractions with
    | some ctr =>
      applyReorder c.reorder ctr.weights ::
        scanWeights c (List.drop ctr.path.length (cp :: rest))
    | none => applyReorder c.reorder (lookupWeight c cp) :: scanWeights c rest
termination_by l => l.length
decreasing_by
  · have hm := bestMatch_matches h
    have hp := (matchesAt_path_pos hm).1
    simp only [List.length_drop, List.length_cons]
    omega
  · simp

/-- Modelled from the spec: remove the trailing space codepoints (0x20) from
the decoded input; under PAD SPACE semantics trailing spaces contribute no
weight, so two strings differing only by trailing spaces get equal sort keys. -/
def stripTrailingSpaces : List Nat → List Nat
  | [] => []
  | x :: xs =>
    match stripTrailingSpaces xs with
    | [] => if x = 0x20 then [] else [x]
    | ys => x :: ys

/-- Modelled from the spec: PAD SPACE collations strip trailing spaces before
weighting; NO PAD collations weight the input as-is. -/
def preprocess (c : Collation) (cps : List Nat) : List Nat :=
  if c.padSpace then stripTrailingSpaces cps else cps

/-- A 16-bit weight emitted as two big-endian bytes. -/
def weightToBytes (w : Nat) : List Nat :=
  [w / 256 % 256, w % 256]

/-- Modelled from the spec (§4.5): one level pass across the whole string —
the bytes of level `l` of every position's weight vector, in position order
(a vector lacking that level contributes weight 0). -/
def levelBytes (vecs : List (List Nat)) (l : Nat) : List Nat :=
  (vecs.map (fun v => weightToBytes (v.getD l 0))).flatten

/-- Emit at most `budget` bytes from a byte list (the engine stops writing
once the caller-supplied output budget is exhausted). -/
def takeBudget : Nat → List Nat → List Nat
  | _, [] => []
  | 0, _ :: _ => []
  | n + 1, x :: xs => x :: takeBudget n xs

/-- Modelled from the spec (§4.5): level-by-level accumulation under a byte
budget — each level pass emits while budget remains and the budget is
decremented by the bytes each full level would produce. -/
def emitBounded (vecs : List (List Nat)) : List Nat → Nat → List Nat
  | [], _ => []
  | l :: ls, b =>
    takeBudget b (levelBytes vecs l) ++
      emitBounded vecs ls (b - (levelBytes vecs l).length)

/-- Modelled from the spec (§4.5 and §6): `WeightString(src, maxLen)`.
Trailing spaces are stripped for PAD SPACE collations, the codepoints are
scanned into per-position weight vectors (contractions longest-first, reorder
applied), and the weights are accumulated level by level — all primary
weights first, then all secondary, and so on for the collation's declared
number of levels.  With `maxLen = some n` the output is cut at `n` weight
bytes. -/
def weightString (c : Collation) (cps : List Nat) (maxLen : Option Nat) : List Nat :=
  let vecs := scanWeights c (preprocess c cps)
  match maxLen with
  | none => ((List.range c.levels).map (levelBytes vecs)).flatten
  | some n => emitBounded vecs (List.range c.levels) n

/-- Byte-lexicographic three-way comparison of two byte lists. -/
def lexCompare : List Nat → List Nat → Ordering
  | [], [] => .eq
  | [], _ :: _ => .lt
  | _ :: _, [] => .gt
  | x :: xs, y :: ys =>
    if x < y then .lt else if y < x then .gt else lexCompare xs ys

/-- Modelled from the spec (§6 and §8): `Compare(a, b)` orders two inputs
exactly as the byte-lexicographic comparison of their unbounded weight
strings. -/
def collationCompare (c : Collation) (a b : List Nat) : Ordering :=
  lexCompare (weightString c a none) (weightString c b none)

/-! ## The offline generator (`makemysqldata.go`), translated from source.

Tailoring weight maps (`tailoringWeights`, a Go map from the key string
`"U+XXXX"` to a weight slice) are modelled as association lists keyed directly
by the parsed codepoint; the hexadecimal key parsing of `diffMaps` is
injective on the canonical keys the metadata dump uses.  Go `panic` /
`log.Fatal` is modelled as `Option.none`. -/

/-- `uca.WeightPatch`: a codepoint together with its full replacement weight
vector. -/
structure WeightPatch where
  codepoint : Nat
  patch : List Nat
deriving DecidableEq, Repr

/-- Ordering on patches used by the `sort.Slice` call of `diffMaps`. -/
def patchLE (a b : WeightPatch) : Prop :=
  a.codepoint ≤ b.codepoint

instance : DecidableRel patchLE :=
  fun a b => Nat.decLe a.codepoint b.codepoint

instance : IsTotal WeightPatch patchLE :=
  ⟨fun a b => Nat.le_total a.codepoint b.codepoint⟩

instance : IsTrans WeightPatch patchLE :=
  ⟨fun _ _ _ => Nat.le_trans⟩

/-- The per-key test of `diffMaps`: a tailored entry goes into the diff map
when the key is absent from the base weights, the vector lengths differ, or
some position of the vector differs (the Go loop `for i, arr := range val`
compares element-wise, reached only when the lengths are equal). -/
def diffEntry (org : List (Nat × List Nat)) (cp : Nat) (val : List Nat) : Bool :=
  match List.lookup cp org with
  | none => true
  | some orgVal =>
    if orgVal.length = val.length then
      (List.range val.length).any (fun i => decide (orgVal.getD i 0 ≠ val.getD i 0))
    else true

/-- `diffMaps`: an empty tailoring yields `nil`; otherwise the entries passing
`diffEntry` become `WeightPatch`es carrying the full tailored vector, sorted
by codepoint (`sort.Slice` on `Codepoint <`). -/
def diffMaps (org mod : List (Nat × List Nat)) : List WeightPatch :=
  if mod.isEmpty then []
  else
    List.insertionSort patchLE
      ((mod.filter (fun kv => diffEntry org kv.1 kv.2)).map
        (fun kv => WeightPatch.mk kv.1 kv.2))

/-- The condition under which `diffMaps` keeps a tailored entry, stated as a
proposition: the codepoint is absent from the base map, or the base vector has
a different length, or it differs at some index below the tailored vector's
length. -/
def ShouldPatch (org : List (Nat × List Nat)) (cp : Nat) (val : List Nat) : Prop :=
  List.lookup cp org = none ∨
    ∃ o, List.lookup cp org = some o ∧
      (o.length ≠ val.length ∨ ∃ i, i < val.length ∧ o.getD i 0 ≠ val.getD i 0)

/-- `strings.HasSuffix`, modelled on the character list of the string. -/
def endsWithL (s p : List Char) : Bool :=
  decide (p.length ≤ s.length ∧ s.drop (s.length - p.length) = p)

/-- `strings.HasSuffix` on strings. -/
def strEndsWith (s p : String) : Bool :=
  endsWithL s.toList p.toList

/-- The `levelsForCompare` switch of `writeUca900`: the number of comparison
levels is selected by the collation name's suffix, first matching case wins;
a name matching no case panics (modelled as `none`). -/
def levelsForCompare (name : String) : Option Nat :=
  if strEndsWith name "_ai_ci" then some 1
  else if strEndsWith name "_as_ci" then some 2
  else if strEndsWith name "_as_cs" then some 3
  else if strEndsWith name "_as_cs_ks" then some 4
  else none

/-- One collation metadata record (`collationMetadata`), restricted to the
fields the generator's control flow reads.  `charsetIsMultibyte` and
`charsetIsUnicode` model `charset.IsMultibyteByName` / `charset.IsUnicodeByName`
(the charset package is not under the given sources). -/
structure CollationMeta where
  name : String
  charset : String
  collationImpl : String
  number : Nat
  ucaVersion : Nat
  weights : List (Nat × List Nat)
  contractions : List Contraction
  reorder : List Reorder
  isDefault : Bool
  upperCaseFirst : Bool
  charsetIsMultibyte : Bool
  charsetIsUnicode : Bool
deriving Repr

/-- The outcome of the `switch` in `main` for one metadata record. -/
inductive CollationClass where
  | hardcoded
  | skippedTis620
  | ucaLegacy
  | uca900
  | simple8bit
  | multibyte
  | unicodeBin
  | unicodeGeneral
  | unsupported
deriving DecidableEq, Repr

/-- The classification `switch` of `main`, case for case in source order:
hardcoded collations, the explicitly skipped `tis620_bin` (its case body is
empty — it is neither registered nor recorded as unsupported), legacy UCA
implementations, UCA900, 8-bit, the `gb18030_unicode_520_ci` special case,
multibyte charsets, unicode `_bin` and `_general_ci` collations, and finally
the `default` case collecting unsupported collations. -/
def classify (m : CollationMeta) : CollationClass :=
  if m.name = "utf8mb4_0900_bin" ∨ m.name = "binary" then .hardcoded
  else if m.name = "tis620_bin" then .skippedTis620
  else if m.collationImpl = "any_uca" ∨ m.collationImpl = "utf16_uca" ∨
      m.collationImpl = "utf32_uca" ∨ m.collationImpl = "ucs2_uca" then .ucaLegacy
  else if m.collationImpl = "uca_900" then .uca900
  else if m.collationImpl = "8bit_bin" ∨ m.collationImpl = "8bit_simple_ci" then .simple8bit
  else if m.name = "gb18030_unicode_520_ci" then .ucaLegacy
  else if m.charsetIsMultibyte then .multibyte
  else if strEndsWith m.name "_bin" && m.charsetIsUnicode then .unicodeBin
  else if strEndsWith m.name "_general_ci" then .unicodeGeneral
  else .unsupported

/-- Whether a classification outcome emits a `register(...)` call. -/
def registersCollation : CollationClass → Bool
  | .ucaLegacy | .uca900 | .simple8bit | .multibyte
  | .unicodeBin | .unicodeGeneral => true
  | _ => false

/-- The `collationsUnsupportedByName` map written by `main`: name → id of
every record that fell through to the `default` case, in input order. -/
def collationsUnsupportedByName (all : List CollationMeta) : List (String × Nat) :=
  (all.filter (fun m => decide (classify m = CollationClass.unsupported))).map
    (fun m => (m.name, m.number))

/-- The three base weight maps extracted in `main` from `utf8mb4_unicode_ci`,
`utf8mb4_unicode_520_ci` and `utf8mb4_0900_ai_ci`. -/
structure BaseWeights where
  uca400 : List (Nat × List Nat)
  uca520 : List (Nat × List Nat)
  uca900 : List (Nat × List Nat)

/-- The base-weight selection switch of `writeWeightPatches`: any UCA version
other than 400/520/900 panics (`none`). -/
def baseWeightsFor (bw : BaseWeights) (v : Nat) : Option (List (Nat × List Nat)) :=
  if v = 400 then some bw.uca400
  else if v = 520 then some bw.uca520
  else if v = 900 then some bw.uca900
  else none

/-- `writeWeightPatches`: selects the base map for the collation's UCA version
and diffs the tailored weights against it. -/
def writeWeightPatches (bw : BaseWeights) (m : CollationMeta) : Option (List WeightPatch) :=
  (baseWeightsFor bw m.ucaVersion).map (fun base => diffMaps base m.weights)

/-- The fields of the `Collation_uca_legacy` registration emitted by
`writeUcaLegacy` that the generator computes (charset and contraction output
are emitted verbatim from the metadata and are not restated here).
`weightTableVersion` records which shared table `uca.WeightTable_uca%d` the
registration references. -/
structure UcaLegacyEntry where
  name : String
  id : Nat
  weightTableVersion : Nat
  tailoring : List WeightPatch
  maxCodepoint : Nat
deriving DecidableEq, Repr

/-- `writeUcaLegacy`: computes the weight patches (which itself panics on an
unknown UCA version), references `uca.WeightTable_uca<version>`, and sets
`maxCodepoint` to 0xFFFF for version 400 and 0x10FFFF for version 520; any
other version panics (`none`). -/
def writeUcaLegacy (bw : BaseWeights) (m : CollationMeta) : Option UcaLegacyEntry :=
  match writeWeightPatches bw m with
  | none => none
  | some patches =>
    if m.ucaVersion = 400 then some ⟨m.name, m.number, m.ucaVersion, patches, 0xFFFF⟩
    else if m.ucaVersion = 520 then some ⟨m.name, m.number, m.ucaVersion, patches, 0x10FFFF⟩
    else none

/-- Which shared UCA900 weight table a registration references. -/
inductive Uca900Table where
  | std
  | zh
  | ja
deriving DecidableEq, Repr

/-- The fields of the `Collation_utf8mb4_uca_0900` registration emitted by
`writeUca900` (the trailing-zero trimming of contraction weight output is not
restated; the contraction list itself is passed through). -/
structure Uca900Entry where
  name : String
  id : Nat
  levelsForCompare : Nat
  weightTable : Uca900Table
  tailoring : List WeightPatch
  contractions : List Contraction
  reorder : List Reorder
  upperCaseFirst : Bool
deriving DecidableEq, Repr

/-- `writeUca900`: panics unless the UCA version is 900; for
`utf8mb4_zh_0900_as_cs` switches to the dedicated `zh` table and clears both
the tailored weights and the reorder ranges; for `utf8mb4_ja_0900_as_cs` and
`utf8mb4_ja_0900_as_cs_ks` switches to the `ja` table and clears the tailored
weights; then computes the patches against the UCA900 base, determines the
level count from the name suffix (panicking on an unknown suffix), and emits
the registration. -/
def writeUca900 (bw : BaseWeights) (m : CollationMeta) : Option Uca900Entry :=
  if m.ucaVersion = 900 then
    let tw : Uca900Table :=
      if m.name = "utf8mb4_zh_0900_as_cs" then .zh
      else if m.name = "utf8mb4_ja_0900_as_cs" ∨ m.name = "utf8mb4_ja_0900_as_cs_ks" then .ja
      else .std
    let weights := if tw = Uca900Table.std then m.weights else []
    let reorder := if tw = Uca900Table.zh then [] else m.reorder
    let patches := diffMaps bw.uca900 weights
    match levelsForCompare m.name with
    | none => none
    | some lv =>
      some ⟨m.name, m.number, lv, tw, patches, m.contractions, reorder, m.upperCaseFirst⟩
  else none

/-! ## Concrete sample data for witnesses. -/

/-- A small PAD-SPACE collation with two levels, explicit weights for a few
ASCII codepoints and no contractions, used to evaluate the engine on concrete
inputs. -/
def sampleCollation : Collation :=
  { levels := 2
    table := [(97, [10, 1]), (98, [11, 1]), (99, [12, 1]), (104, [13, 1]), (32, [5, 1])]
    patches := []
    contractions := []
    reorder := []
    padSpace := true }

/-- A collation carrying contraction rules for both the path `[99]` (the
codepoint of `c`) and the longer path `[99, 104]` (`ch`). -/
def sampleContractionCollation : Collation :=
  { levels := 1
    table := [(97, [10]), (98, [11]), (99, [12]), (104, [13])]
    patches := []
    contractions :=
      [ { path := [99], weights := [40], contextual := false },
        { path := [99, 104], weights := [50], contextual := false } ]
    reorder := []
    padSpace := false }

/-- A sample base weight map for exercising `diffMaps`. -/
def sampleOrgWeights : List (Nat × List Nat) :=
  [(65, [1, 2]), (66, [3, 4])]

/-- A sample tailored weight map: codepoint 66 differs from the base at index
1, codepoint 65 is identical, codepoint 67 is absent from the base. -/
def sampleModWeights : List (Nat × List Nat) :=
  [(66, [3, 5]), (65, [1, 2]), (67, [9])]

/-- Sample base weights for the generator writers. -/
def sampleBaseWeights : BaseWeights :=
  { uca400 := sampleOrgWeights, uca520 := sampleOrgWeights, uca900 := sampleOrgWeights }

/-- A concrete metadata record for `tis620_bin` as the generator would read it
from the dump (an 8-bit binary collation of the `tis620` charset). -/
def tis620Meta : CollationMeta :=
  { name := "tis620_bin"
    charset := "tis620"
    collationImpl := "8bit_bin"
    number := 89
    ucaVersion := 0
    weights := []
    contractions := []
    reorder := []
    isDefault := false
    upperCaseFirst := false
    charsetIsMultibyte := false
    charsetIsUnicode := false }

/-- A concrete metadata record for `utf8mb4_zh_0900_as_cs`, carrying tailored
weights and a reorder range in its source metadata. -/
def zhMeta : CollationMeta :=
  { name := "utf8mb4_zh_0900_as_cs"
    charset := "utf8mb4"
    collationImpl := "uca_900"
    number := 308
    ucaVersion := 900
    weights := sampleModWeights
    contractions := []
    reorder := [⟨0x1000, 0x2000, 0x3000, 0x4000⟩]
    isDefault := false
    upperCaseFirst := false
    charsetIsMultibyte := false
    charsetIsUnicode := true }

/-- A concrete metadata record for a legacy UCA 5.2.0 collation. -/
def legacyMeta : CollationMeta :=
  { name := "utf8mb4_unicode_520_ci"
    charset := "utf8mb4"
    collationImpl := "any_uca"
    number := 246
    ucaVersion := 520
    weights := sampleModWeights
    contractions := []
    reorder := []
    isDefault := false
    upperCaseFirst := false
    charsetIsMultibyte := false
    charsetIsUnicode := true }

/-- The registration entry the generator emits for `legacyMeta`. -/
def legacyEntryConcrete : UcaLegacyEntry :=
  { name := "utf8mb4_unicode_520_ci"
    id := 246
    weightTableVersion := 520
    tailoring := [⟨66, [3, 5]⟩, ⟨67, [9]⟩]
    maxCodepoint := 0x10FFFF }

/-- The registration entry the generator emits for `zhMeta`. -/
def zhEntryConcrete : Uca900Entry :=
  { name := "utf8mb4_zh_0900_as_cs"
    id := 308
    levelsForCompare := 3
    weightTable := Uca900Table.zh
    tailoring := []
    contractions := []
    reorder := []
    upperCaseFirst := false }

/-! ## Theorems. -/

theorem stripTrailingSpaces_replicate (k : Nat) :
    stripTrailingSpaces (List.replicate k 0x20) = [] := by
  induction k with
  | zero => rfl
  | succ n ih => simp [List.replicate_succ, stripTrailingSpaces, ih]

theorem stripTrailingSpaces_append_replicate (s : List Nat) (k : Nat) :
    stripTrailingSpaces (s ++ List.replicate k 0x20) = stripTrailingSpaces s := by
  induction s with
  | nil => simpa using stripTrailingSpaces_replicate k
  | cons x xs ih => simp only [List.cons_append, stripTrailingSpaces, List.append_eq, ih]

/-- C2: `WeightString` is a deterministic pure function: two invocations with
identical input codepoints and identical `maxLen` produce identical output
bytes, for every collation — the property the golden-corpus harness relies
on. -/
theorem weightString_deterministic (c : Collation) (s₁ s₂ : List Nat)
    (m₁ m₂ : Option Nat) (hs : s₁ = s₂) (hm : m₁ = m₂) :
    weightString c s₁ m₁ = weightString c s₂ m₂ := by
  rw [hs, hm]

theorem weightString_deterministic_witness :
    weightString sampleCollation [97, 98, 99] (some 3) =
      weightString sampleCollation [97, 98, 99] (some 3) :=
  weightString_deterministic sampleCollation [97, 98, 99] [97, 98, 99]
    (some 3) (some 3) rfl rfl

/-- C4: PAD SPACE semantics — for a PAD-SPACE collation, appending any number
of trailing space codepoints to the input leaves the weight string unchanged,
so two strings differing only by trailing spaces get equal sort keys. -/
theorem weightString_padSpace (c : Collation) (h : c.padSpace = true)
    (s : List Nat) (k : Nat) (m : Option Nat) :
    weightString c (s ++ List.replicate k 0x20) m = weightString c s m := by
  unfold weightString preprocess
  rw [h]
  simp only [if_true, stripTrailingSpaces_append_replicate]

theorem weightString_padSpace_witness :
    weightString sampleCollation [97, 98, 99, 0x20, 0x20, 0x20] none =
      weightString sampleCollation [97, 98, 99] none :=
  weightString_padSpace sampleCollation rfl [97, 98, 99] 3 none

theorem takeBudget_eq_take (n : Nat) (xs : List Nat) :
    takeBudget n xs = xs.take n := by
  induction xs generalizing n with
  | nil => cases n <;> rfl
  | cons x t ih =>
    cases n with
    | zero => rfl
    | succ k => simp [takeBudget, List.take_succ_cons, ih]

theorem emitBounded_eq_take (vecs : List (List Nat)) (ls : List Nat) (b : Nat) :
    emitBounded vecs ls b = ((ls.map (levelBytes vecs)).flatten).take b := by
  induction ls generalizing b with
  | nil => simp [emitBounded]
  | cons l t ih =>
    simp only [emitBounded, List.map_cons, List.flatten_cons,
      List.take_append_eq_append_take, takeBudget_eq_take, ih]

/-- A collation without contractions weights each codepoint individually. -/
theorem scanWeights_no_contractions (c : Collation) (h : c.contractions = [])
    (l : List Nat) :
    scanWeights c l = l.map (fun cp => applyReorder c.reorder (lookupWeight c cp)) := by
  induction l with
  | nil => rw [scanWeights]; rfl
  | cons cp rest ih =>
    rw [scanWeights]
    split
    · rename_i ctr heq
      rw [h] at heq
      simp [bestMatch] at heq
    · simp only [List.map_cons]
      rw [ih]

/-- Concrete evaluation of the sample collation's unbounded weight string. -/
theorem weightString_sample_eval :
    weightString sampleCollation [97, 98, 99] none =
      [0, 10, 0, 11, 0, 12, 0, 1, 0, 1, 0, 1] := by
  have h1 : preprocess sampleCollation [97, 98, 99] = [97, 98, 99] := by decide
  have h2 : scanWeights sampleCollation [97, 98, 99] = [[10, 1], [11, 1], [12, 1]] := by
    rw [scanWeights_no_contractions sampleCollation rfl]
    decide
  simp only [weightString, h1, h2]
  decide

/-- C3: truncation prefix law — for `N` below the untruncated weight length,
`WeightString(s, maxLen = N)` is exactly the first `N` bytes of the unbounded
weight string. -/
theorem weightString_truncation_prefix (c : Collation) (s : List Nat) (N : Nat)
    (hN : N < (weightString c s none).length) :
    weightString c s (some N) = (weightString c s none).take N := by
  clear hN
  simp only [weightString]
  exact emitBounded_eq_take _ _ _

theorem weightString_truncation_prefix_witness :
    2 < (weightString sampleCollation [97, 98, 99] none).length ∧
      weightString sampleCollation [97, 98, 99] (some 2) =
        (weightString sampleCollation [97, 98, 99] none).take 2 :=
  ⟨by rw [weightString_sample_eval]; decide,
   weightString_truncation_prefix sampleCollation [97, 98, 99] 2
     (by rw [weightString_sample_eval]; decide)⟩

theorem bestMatch_le_length {input : List Nat} {ctrs : List Contraction}
    {ctr : Contraction} (hmem : ctr ∈ ctrs) (hm : matchesAt input ctr = true) :
    ∃ b, bestMatch input ctrs = some b ∧ ctr.path.length ≤ b.path.length := by
  induction ctrs with
  | nil => simp at hmem
  | cons c0 cs ih =>
    rcases List.mem_cons.mp hmem with h0 | hmem'
    · subst h0
      cases hb : bestMatch input cs with
      | none => exact ⟨ctr, by simp [bestMatch, hb, hm], le_refl _⟩
      | some b0 =>
        by_cases hl : b0.path.length < ctr.path.length
        · exact ⟨ctr, by simp [bestMatch, hb, hm, hl], le_refl _⟩
        · exact ⟨b0, by simp [bestMatch, hb, hm, hl], Nat.le_of_not_lt hl⟩
    · obtain ⟨b, hb, hlen⟩ := ih hmem'
      by_cases hm0 : matchesAt input c0 = true
      · by_cases hl : b.path.length < c0.path.length
        · exact ⟨c0, by simp [bestMatch, hb, hm0, hl], hlen.trans (Nat.le_of_lt hl)⟩
        · exact ⟨b, by simp [bestMatch, hb, hm0, hl], hlen⟩
      · exact ⟨b, by simp [bestMatch, hb, hm0], hlen⟩

/-- C5: contraction matching is longest-first — if a registered contraction
matches at the current scan position, the matcher returns a matching
contraction whose path is at least as long (so among a `"c"` and a `"ch"`
rule on input `"ch"`, the `"ch"` rule wins), and the weight-string scan
applies exactly that longest match, consuming its whole path. -/
theorem contraction_longest_first (c : Collation) (cp : Nat) (rest : List Nat)
    (ctr : Contraction) (hmem : ctr ∈ c.contractions)
    (hm : matchesAt (cp :: rest) ctr = true) :
    ∃ b, bestMatch (cp :: rest) c.contractions = some b ∧
      matchesAt (cp :: rest) b = true ∧
      ctr.path.length ≤ b.path.length ∧
      scanWeights c (cp :: rest) =
        applyReorder c.reorder b.weights ::
          scanWeights c (List.drop b.path.length (cp :: rest)) := by
  obtain ⟨b, hb, hlen⟩ := bestMatch_le_length hmem hm
  refine ⟨b, hb, bestMatch_matches hb, hlen, ?_⟩
  rw [scanWeights]
  split
  · rename_i ctr' heq
    rw [hb] at heq
    cases heq
    rfl
  · rename_i heq
    rw [hb] at heq
    exact Option.noConfusion heq

theorem contraction_longest_first_witness :
    ∃ b, bestMatch [99, 104] sampleContractionCollation.contractions = some b ∧
      matchesAt [99, 104] b = true ∧
      (Contraction.mk [99, 104] [50] false).path.length ≤ b.path.length ∧
      scanWeights sampleContractionCollation [99, 104] =
        applyReorder sampleContractionCollation.reorder b.weights ::
          scanWeights sampleContractionCollation
            (List.drop b.path.length [99, 104]) :=
  contraction_longest_first sampleContractionCollation 99 [104]
    (Contraction.mk [99, 104] [50] false) (by decide) (by decide)

theorem lexCompare_eq_iff (xs : List Nat) :
    ∀ ys, lexCompare xs ys = Ordering.eq ↔ xs = ys := by
  induction xs with
  | nil =>
    intro ys
    cases ys with
    | nil => simp [lexCompare]
    | cons y t => simp [lexCompare]
  | cons x xs ih =>
    intro ys
    cases ys with
    | nil => simp [lexCompare]
    | cons y t =>
      simp only [lexCompare]
      rcases Nat.lt_trichotomy x y with h | h | h
      · rw [if_pos h]
        constructor
        · intro hc; exact Ordering.noConfusion hc
        · intro hc
          injection hc with h1 _
          omega
      · subst h
        rw [if_neg (lt_irrefl x), if_neg (lt_irrefl x), ih t]
        simp
      · rw [if_neg (by omega), if_pos h]
        constructor
        · intro hc; exact Ordering.noConfusion hc
        · intro hc
          injection hc with h1 _
          omega

theorem lexCompare_lt_iff (xs : List Nat) :
    ∀ ys, lexCompare xs ys = Ordering.lt ↔ List.Lex (· < ·) xs ys := by
  induction xs with
  | nil =>
    intro ys
    cases ys with
    | nil => simp [lexCompare]
    | cons y t =>
      exact iff_of_true rfl List.Lex.nil
  | cons x xs ih =>
    intro ys
    cases ys with
    | nil => simp [lexCompare]
    | cons y t =>
      simp only [lexCompare]
      rcases Nat.lt_trichotomy x y with h | h | h
      · rw [if_pos h]
        exact ⟨fun _ => List.Lex.rel h, fun _ => rfl⟩
      · subst h
        rw [if_neg (lt_irrefl x), if_neg (lt_irrefl x), ih t]
        constructor
        · exact List.Lex.cons
        · intro hl
          cases hl with
          | cons h' => exact h'
          | rel h' => exact absurd h' (lt_irrefl x)
      · rw [if_neg (by omega), if_pos h]
        constructor
        · intro hc; exact Ordering.noConfusion hc
        · intro hl
          exfalso
          cases hl with
          | cons h' => exact absurd h (lt_irrefl x)
          | rel h' => omega

theorem lexCompare_swap (xs : List Nat) :
    ∀ ys, (lexCompare xs ys).swap = lexCompare ys xs := by
  induction xs with
  | nil =>
    intro ys
    cases ys <;> rfl
  | cons x xs ih =>
    intro ys
    cases ys with
    | nil => rfl
    | cons y t =>
      simp only [lexCompare]
      rcases Nat.lt_trichotomy x y with h | h | h
      · rw [if_pos h, if_neg (by omega), if_pos h]; rfl
      · subst h
        simp only [if_neg (lt_irrefl x)]
        exact ih t
      · rw [if_neg (by omega), if_pos h, if_pos h]; rfl

theorem lexCompare_gt_iff (xs ys : List Nat) :
    lexCompare xs ys = Ordering.gt ↔ List.Lex (· < ·) ys xs := by
  rw [← lexCompare_lt_iff ys xs, ← lexCompare_swap xs ys]
  cases lexCompare xs ys <;> simp [Ordering.swap]

/-- C1: for every collation, `Compare(a, b)` returns less/equal/greater
exactly according to the byte-lexicographic comparison of the two unbounded
weight strings, and the induced relation is a strict total order on the
equivalence classes of equal weight strings (equality of outcome coincides
with equality of weight strings, the order is asymmetric by the
less/greater duality, and transitive). -/
theorem compare_weight_lexicographic (c : Collation) (a b d : List Nat) :
    (collationCompare c a b = Ordering.lt ↔
      List.Lex (· < ·) (weightString c a none) (weightString c b none)) ∧
    (collationCompare c a b = Ordering.eq ↔
      weightString c a none = weightString c b none) ∧
    (collationCompare c a b = Ordering.gt ↔
      List.Lex (· < ·) (weightString c b none) (weightString c a none)) ∧
    (collationCompare c a b = Ordering.lt → collationCompare c b d = Ordering.lt →
      collationCompare c a d = Ordering.lt) := by
  refine ⟨lexCompare_lt_iff _ _, lexCompare_eq_iff _ _, lexCompare_gt_iff _ _, ?_⟩
  intro h1 h2
  rw [collationCompare, lexCompare_lt_iff] at h1 h2 ⊢
  exact IsTrans.trans _ _ _ h1 h2

theorem compare_weight_lexicographic_witness :
    collationCompare sampleCollation [97] [97] = Ordering.eq :=
  (compare_weight_lexicographic sampleCollation [97] [97] []).2.1.mpr rfl

theorem classify_of_name_tis620 {m : CollationMeta} (hname : m.name = "tis620_bin") :
    classify m = CollationClass.skippedTis620 := by
  simp [classify, hname]

/-- C6 counterexample: the generator does not route `tis620_bin` into the
`collationsUnsupportedByName` map — its switch case is an empty body, so on a
metadata dump containing `tis620_bin` the record is classified as explicitly
skipped and the emitted unsupported map is empty. -/
theorem tis620_unsupported_counterexample :
    classify tis620Meta = CollationClass.skippedTis620 ∧
      collationsUnsupportedByName [tis620Meta] = [] := by
  constructor
  · exact classify_of_name_tis620 rfl
  · rfl

/-- C6 (amended): the generator excludes `tis620_bin` through a dedicated
empty switch case: the record is neither registered nor added to the
`collationsUnsupportedByName` map, so a by-name lookup finds no unsupported
entry for it (and reports it as unknown rather than unsupported). -/
theorem tis620_skipped (all : List CollationMeta) (m : CollationMeta)
    (hname : m.name = "tis620_bin") :
    classify m = CollationClass.skippedTis620 ∧
      registersCollation (classify m) = false ∧
      ∀ p ∈ collationsUnsupportedByName all, p.1 ≠ "tis620_bin" := by
  refine ⟨classify_of_name_tis620 hname, ?_, ?_⟩
  · rw [classify_of_name_tis620 hname]; rfl
  · intro p hp
    rw [collationsUnsupportedByName] at hp
    obtain ⟨m', hm', rfl⟩ := List.mem_map.mp hp
    obtain ⟨-, hcl⟩ := List.mem_filter.mp hm'
    intro hn
    rw [classify_of_name_tis620 hn] at hcl
    exact absurd (of_decide_eq_true hcl) (by simp)

theorem tis620_skipped_witness :
    classify tis620Meta = CollationClass.skippedTis620 ∧
      registersCollation (classify tis620Meta) = false ∧
      ∀ p ∈ collationsUnsupportedByName [tis620Meta], p.1 ≠ "tis620_bin" :=
  tis620_skipped [tis620Meta] tis620Meta rfl

theorem endsWithL_iff {s p : List Char} :
    endsWithL s p = true ↔
      p.length ≤ s.length ∧ s.drop (s.length - p.length) = p := by
  simp [endsWithL]

theorem endsWithL_of_endsWithL {s p q : List Char}
    (hp : endsWithL s p = true) (hq : endsWithL s q = true)
    (hlen : p.length ≤ q.length) : endsWithL q p = true := by
  rw [endsWithL_iff] at hp hq ⊢
  obtain ⟨hl1, hd1⟩ := hp
  obtain ⟨hl2, hd2⟩ := hq
  refine ⟨hlen, ?_⟩
  calc q.drop (q.length - p.length)
      = (s.drop (s.length - q.length)).drop (q.length - p.length) := by rw [hd2]
    _ = s.drop (s.length - p.length) := by
        rw [List.drop_drop]
        congr 1
        omega
    _ = p := hd1

theorem strEndsWith_both {s p q : String}
    (hp : strEndsWith s p = true) (hq : strEndsWith s q = true)
    (hlen : p.toList.length ≤ q.toList.length) :
    endsWithL q.toList p.toList = true :=
  endsWithL_of_endsWithL hp hq hlen

/-- C7: every UCA900 registration's comparison-level count is determined
solely by the collation name's suffix — `_ai_ci` gives 1 level, `_as_ci` 2,
`_as_cs` 3 and `_as_cs_ks` 4, always between 1 and 4 — and a UCA900 name
matching none of the suffixes is rejected (no level count is assigned); the
emitted registration carries exactly the level count selected by the name. -/
theorem uca900_levels (bw : BaseWeights) (m : CollationMeta) (name : String) :
    (levelsForCompare name = some 1 ↔ strEndsWith name "_ai_ci" = true) ∧
    (levelsForCompare name = some 2 ↔ strEndsWith name "_as_ci" = true) ∧
    (levelsForCompare name = some 3 ↔ strEndsWith name "_as_cs" = true) ∧
    (levelsForCompare name = some 4 ↔ strEndsWith name "_as_cs_ks" = true) ∧
    (levelsForCompare name = none ↔
      (¬strEndsWith name "_ai_ci" = true ∧ ¬strEndsWith name "_as_ci" = true ∧
        ¬strEndsWith name "_as_cs" = true ∧ ¬strEndsWith name "_as_cs_ks" = true)) ∧
    (∀ k, levelsForCompare name = some k → 1 ≤ k ∧ k ≤ 4) ∧
    (∀ e, writeUca900 bw m = some e →
      levelsForCompare m.name = some e.levelsForCompare) := by
  have X12 : ¬(strEndsWith name "_ai_ci" = true ∧ strEndsWith name "_as_ci" = true) := by
    rintro ⟨h1, h2⟩
    exact absurd (strEndsWith_both h1 h2 (by decide)) (by decide)
  have X13 : ¬(strEndsWith name "_ai_ci" = true ∧ strEndsWith name "_as_cs" = true) := by
    rintro ⟨h1, h2⟩
    exact absurd (strEndsWith_both h1 h2 (by decide)) (by decide)
  have X23 : ¬(strEndsWith name "_as_ci" = true ∧ strEndsWith name "_as_cs" = true) := by
    rintro ⟨h1, h2⟩
    exact absurd (strEndsWith_both h1 h2 (by decide)) (by decide)
  have X14 : ¬(strEndsWith name "_ai_ci" = true ∧ strEndsWith name "_as_cs_ks" = true) := by
    rintro ⟨h1, h2⟩
    exact absurd (strEndsWith_both h1 h2 (by decide)) (by decide)
  have X24 : ¬(strEndsWith name "_as_ci" = true ∧ strEndsWith name "_as_cs_ks" = true) := by
    rintro ⟨h1, h2⟩
    exact absurd (strEndsWith_both h1 h2 (by decide)) (by decide)
  have X34 : ¬(strEndsWith name "_as_cs" = true ∧ strEndsWith name "_as_cs_ks" = true) := by
    rintro ⟨h1, h2⟩
    exact absurd (strEndsWith_both h1 h2 (by decide)) (by decide)
  have hwrite : ∀ e, writeUca900 bw m = some e →
      levelsForCompare m.name = some e.levelsForCompare := by
    intro e he
    by_cases hv : m.ucaVersion = 900
    · simp only [writeUca900, hv, if_true] at he
      cases hlv : levelsForCompare m.name with
      | none => rw [hlv] at he; exact Option.noConfusion he
      | some lv =>
        rw [hlv] at he
        simp only [Option.some.injEq] at he
        rw [← he]
    · simp only [writeUca900, hv, if_false] at he
      exact Option.noConfusion he
  by_cases E1 : strEndsWith name "_ai_ci" = true
  · have N2 : ¬strEndsWith name "_as_ci" = true := fun h => X12 ⟨E1, h⟩
    have N3 : ¬strEndsWith name "_as_cs" = true := fun h => X13 ⟨E1, h⟩
    have N4 : ¬strEndsWith name "_as_cs_ks" = true := fun h => X14 ⟨E1, h⟩
    refine ⟨?_, ?_, ?_, ?_, ?_, ?_, hwrite⟩ <;>
      simp [levelsForCompare, E1, N2, N3, N4]
  · by_cases E2 : strEndsWith name "_as_ci" = true
    · have N3 : ¬strEndsWith name "_as_cs" = true := fun h => X23 ⟨E2, h⟩
      have N4 : ¬strEndsWith name "_as_cs_ks" = true := fun h => X24 ⟨E2, h⟩
      refine ⟨?_, ?_, ?_, ?_, ?_, ?_, hwrite⟩ <;>
        simp [levelsForCompare, E1, E2, N3, N4]
    · by_cases E3 : strEndsWith name "_as_cs" = true
      · have N4 : ¬strEndsWith name "_as_cs_ks" = true := fun h => X34 ⟨E3, h⟩
        refine ⟨?_, ?_, ?_, ?_, ?_, ?_, hwrite⟩ <;>
          simp [levelsForCompare, E1, E2, E3, N4]
      · by_cases E4 : strEndsWith name "_as_cs_ks" = true
        · refine ⟨?_, ?_, ?_, ?_, ?_, ?_, hwrite⟩ <;>
            simp [levelsForCompare, E1, E2, E3, E4]
        · refine ⟨?_, ?_, ?_, ?_, ?_, ?_, hwrite⟩ <;>
            simp [levelsForCompare, E1, E2, E3, E4]

theorem uca900_levels_witness :
    levelsForCompare "utf8mb4_0900_ai_ci" = some 1 :=
  (uca900_levels sampleBaseWeights zhMeta "utf8mb4_0900_ai_ci").1.mpr (by decide)

/-- C8: a legacy UCA registration references the shared weight table selected
solely by its UCA generation (`WeightTable_uca400` or `WeightTable_uca520`),
with `maxCodepoint` 0xFFFF for version 400 and 0x10FFFF for version 520, and
the generator accepts exactly these two versions — any other declared version
is a fatal generation-time error. -/
theorem ucaLegacy_version_table (bw : BaseWeights) (m : CollationMeta) :
    ((writeUcaLegacy bw m).isSome = true ↔
      (m.ucaVersion = 400 ∨ m.ucaVersion = 520)) ∧
    (∀ e, writeUcaLegacy bw m = some e →
      e.weightTableVersion = m.ucaVersion ∧
      (m.ucaVersion = 400 → e.maxCodepoint = 0xFFFF) ∧
      (m.ucaVersion = 520 → e.maxCodepoint = 0x10FFFF)) := by
  by_cases h4 : m.ucaVersion = 400
  · constructor
    · simp [writeUcaLegacy, writeWeightPatches, baseWeightsFor, h4]
    · intro e he
      simp [writeUcaLegacy, writeWeightPatches, baseWeightsFor, h4] at he
      subst he
      exact ⟨h4.symm, fun _ => rfl, fun h => absurd (h4.symm.trans h) (by decide)⟩
  · by_cases h5 : m.ucaVersion = 520
    · constructor
      · simp [writeUcaLegacy, writeWeightPatches, baseWeightsFor, h4, h5]
      · intro e he
        simp [writeUcaLegacy, writeWeightPatches, baseWeightsFor, h4, h5] at he
        subst he
        exact ⟨h5.symm, fun h => absurd (h5.symm.trans h) (by decide), fun _ => rfl⟩
    · constructor
      · by_cases h9 : m.ucaVersion = 900
        · simp [writeUcaLegacy, writeWeightPatches, baseWeightsFor, h4, h5, h9]
        · simp [writeUcaLegacy, writeWeightPatches, baseWeightsFor, h4, h5, h9]
      · intro e he
        exfalso
        by_cases h9 : m.ucaVersion = 900
        · simp [writeUcaLegacy, writeWeightPatches, baseWeightsFor, h4, h5, h9] at he
        · simp [writeUcaLegacy, writeWeightPatches, baseWeightsFor, h4, h5, h9] at he

theorem ucaLegacy_version_table_witness :
    legacyEntryConcrete.weightTableVersion = legacyMeta.ucaVersion ∧
      legacyEntryConcrete.maxCodepoint = 0x10FFFF :=
  ⟨((ucaLegacy_version_table sampleBaseWeights legacyMeta).2 legacyEntryConcrete
      (by decide)).1,
   ((ucaLegacy_version_table sampleBaseWeights legacyMeta).2 legacyEntryConcrete
      (by decide)).2.2 rfl⟩

theorem diffMaps_nil (org : List (Nat × List Nat)) : diffMaps org [] = [] := by
  simp [diffMaps]

/-- C10: for `utf8mb4_zh_0900_as_cs` the emitted registration uses the
dedicated `zh` weight table and discards both the metadata's weight patches
and its reorder ranges; for `utf8mb4_ja_0900_as_cs` and
`utf8mb4_ja_0900_as_cs_ks` it uses the `ja` table and discards the weight
patches (keeping the reorder ranges). -/
theorem uca900_zh_ja_tables (bw : BaseWeights) (m : CollationMeta)
    (e : Uca900Entry) (he : writeUca900 bw m = some e) :
    (m.name = "utf8mb4_zh_0900_as_cs" →
      e.weightTable = Uca900Table.zh ∧ e.tailoring = [] ∧ e.reorder = []) ∧
    ((m.name = "utf8mb4_ja_0900_as_cs" ∨ m.name = "utf8mb4_ja_0900_as_cs_ks") →
      e.weightTable = Uca900Table.ja ∧ e.tailoring = [] ∧ e.reorder = m.reorder) := by
  by_cases hv : m.ucaVersion = 900
  · constructor
    · intro hname
      have hlv : levelsForCompare "utf8mb4_zh_0900_as_cs" = some 3 := by decide
      simp only [writeUca900, hv, if_true, hname] at he
      simp only [diffMaps_nil, hlv] at he
      simp at he
      subst he
      exact ⟨rfl, rfl, rfl⟩
    · rintro (hname | hname)
      · have hlv : levelsForCompare "utf8mb4_ja_0900_as_cs" = some 3 := by decide
        simp only [writeUca900, hv, if_true, hname] at he
        simp only [diffMaps_nil, hlv] at he
        simp at he
        subst he
        exact ⟨rfl, rfl, rfl⟩
      · have hlv : levelsForCompare "utf8mb4_ja_0900_as_cs_ks" = some 4 := by decide
        simp only [writeUca900, hv, if_true, hname] at he
        simp only [diffMaps_nil, hlv] at he
        simp at he
        subst he
        exact ⟨rfl, rfl, rfl⟩
  · simp only [writeUca900, hv, if_false] at he
    exact Option.noConfusion he

theorem uca900_zh_ja_tables_witness :
    zhEntryConcrete.weightTable = Uca900Table.zh ∧
      zhEntryConcrete.tailoring = [] ∧ zhEntryConcrete.reorder = [] :=
  (uca900_zh_ja_tables sampleBaseWeights zhMeta zhEntryConcrete (by decide)).1 rfl

theorem diffEntry_iff (org : List (Nat × List Nat)) (cp : Nat) (val : List Nat) :
    diffEntry org cp val = true ↔ ShouldPatch org cp val := by
  unfold diffEntry ShouldPatch
  cases h : List.lookup cp org with
  | none => simp
  | some o =>
    by_cases hl : o.length = val.length
    · simp [hl, List.any_eq_true, List.mem_range]
    · simp [hl]

theorem diffMaps_cons_eq (org : List (Nat × List Nat)) (kv : Nat × List Nat)
    (tl : List (Nat × List Nat)) :
    diffMaps org (kv :: tl) =
      List.insertionSort patchLE
        (((kv :: tl).filter (fun kv => diffEntry org kv.1 kv.2)).map
          (fun kv => WeightPatch.mk kv.1 kv.2)) := by
  rfl

/-- C9: `diffMaps` is exactly the sorted difference from the base table — a
codepoint is in the patch list iff its tailored vector is absent from the base
map, has a different length, or differs at some index; the patch carried is
the full tailored vector; the result is sorted in strictly ascending
codepoint order; and an empty tailoring yields no patches. -/
theorem diffMaps_spec (org mod : List (Nat × List Nat))
    (hnodup : (mod.map Prod.fst).Nodup) :
    (∀ p : WeightPatch, p ∈ diffMaps org mod ↔
      ((p.codepoint, p.patch) ∈ mod ∧ ShouldPatch org p.codepoint p.patch)) ∧
    List.Sorted (fun a b : WeightPatch => a.codepoint < b.codepoint)
      (diffMaps org mod) ∧
    diffMaps org [] = [] := by
  cases mod with
  | nil =>
    refine ⟨?_, by simp [diffMaps], by simp [diffMaps]⟩
    intro p
    simp [diffMaps]
  | cons hd tl =>
    rw [diffMaps_cons_eq]
    set l := (((hd :: tl).filter (fun kv => diffEntry org kv.1 kv.2)).map
      (fun kv => WeightPatch.mk kv.1 kv.2)) with hl
    refine ⟨?_, ?_, by simp [diffMaps]⟩
    · intro p
      rw [List.mem_insertionSort, hl]
      constructor
      · intro hp
        obtain ⟨kv, hkv, heq⟩ := List.mem_map.mp hp
        obtain ⟨hmem, hde⟩ := List.mem_filter.mp hkv
        subst heq
        exact ⟨by simpa using hmem, (diffEntry_iff org kv.1 kv.2).mp hde⟩
      · rintro ⟨hmem, hsp⟩
        refine List.mem_map.mpr ⟨(p.codepoint, p.patch), ?_, by cases p; rfl⟩
        exact List.mem_filter.mpr ⟨hmem, (diffEntry_iff org _ _).mpr hsp⟩
    · have hsorted_le : List.Sorted patchLE (List.insertionSort patchLE l) :=
        List.sorted_insertionSort patchLE l
      have hperm : List.Perm (List.insertionSort patchLE l) l :=
        List.perm_insertionSort patchLE l
      have hcomp : ((fun p : WeightPatch => p.codepoint) ∘
          (fun kv : Nat × List Nat => WeightPatch.mk kv.1 kv.2)) =
          (Prod.fst : Nat × List Nat → Nat) := rfl
      have hndfil : (((hd :: tl).filter
          (fun kv => diffEntry org kv.1 kv.2)).map Prod.fst).Nodup :=
        hnodup.sublist ((List.filter_sublist (hd :: tl)).map Prod.fst)
      have hndl : (l.map (fun p => p.codepoint)).Nodup := by
        rw [hl, List.map_map, hcomp]
        exact hndfil
      have hnds : ((List.insertionSort patchLE l).map
          (fun p => p.codepoint)).Nodup :=
        ((hperm.map (fun p => p.codepoint)).nodup_iff).mpr hndl
      have hsle : List.Sorted (· ≤ ·)
          ((List.insertionSort patchLE l).map (fun p => p.codepoint)) :=
        List.pairwise_map.mpr hsorted_le
      have hslt := hsle.lt_of_le hnds
      exact List.pairwise_map.mp hslt

theorem diffMaps_spec_witness :
    WeightPatch.mk 67 [9] ∈ diffMaps sampleOrgWeights sampleModWeights ∧
      List.Sorted (fun a b : WeightPatch => a.codepoint < b.codepoint)
        (diffMaps sampleOrgWeights sampleModWeights) :=
  ⟨((diffMaps_spec sampleOrgWeights sampleModWeights (by decide)).1
      (WeightPatch.mk 67 [9])).mpr ⟨by decide, Or.inl (by decide)⟩,
   (diffMaps_spec sampleOrgWeights sampleModWeights (by decide)).2.1⟩

end Vitess
